import Mathlib

/-!
# Verification of the luminvaria colorimetric pipeline

A shallow embedding of `src/luminvaria.py`.  Python floats are modelled as
exact rationals (`ℚ`), Python strings as `List Char`, and fallible code
returns `Option`.  The external `colour`-science library functions
(`CIECAM16_to_XYZ`, `XYZ_to_sRGB`, ...) are numeric collaborators outside
this repository; the definitions below that use them are parameterized by a
`ColourLib` record bundling those functions, so every theorem about the
palette search holds for the actual library behaviour (whatever it is).
-/

/-! ## Characters and Python `int(s, 16)` parsing

Python's `int(s, 16)` accepts optional surrounding whitespace, an optional
sign, an optional `0x`/`0X` mark (which may be followed by one underscore),
and then hexadecimal digits with single underscores allowed between digits.
The model below covers the ASCII character set (the program only ever feeds
it ASCII). -/

/-- The whitespace characters stripped by Python `int()`:
space, tab, newline, carriage return, form feed, vertical tab. -/
def isPySpace (c : Char) : Bool :=
  c.toNat = 32 || c.toNat = 9 || c.toNat = 10 || c.toNat = 13 ||
  c.toNat = 12 || c.toNat = 11

/-- ASCII hexadecimal digit, as accepted by Python `int(s, 16)`:
`0`-`9`, `a`-`f`, `A`-`F`. -/
def isHexCh (c : Char) : Bool :=
  (48 ≤ c.toNat && c.toNat ≤ 57) ||
  (97 ≤ c.toNat && c.toNat ≤ 102) ||
  (65 ≤ c.toNat && c.toNat ≤ 70)

/-- Numeric value of a hexadecimal digit (meaningful when `isHexCh c`). -/
def hexVal (c : Char) : ℕ :=
  if c.toNat ≤ 57 then c.toNat - 48
  else if 97 ≤ c.toNat then c.toNat - 87
  else c.toNat - 55

/-- Hexadecimal digits after the first one: digits, with a single
underscore allowed between two digits (Python numeral grammar). -/
def hexTail : List Char → ℕ → Option ℕ
  | [], acc => some acc
  | c :: r, acc =>
    if isHexCh c then hexTail r (16 * acc + hexVal c)
    else if c.toNat = 95 then
      match r with
      | c2 :: r2 => if isHexCh c2 then hexTail r2 (16 * acc + hexVal c2) else none
      | [] => none
    else none

/-- A nonempty run of hexadecimal digits (with internal underscores),
starting with a digit. -/
def hexStart : List Char → Option ℕ
  | [] => none
  | c :: r => if isHexCh c then hexTail r (hexVal c) else none

/-- After a `0x` mark, one underscore may separate the mark from the first
digit. -/
def hexAfterMark : List Char → Option ℕ
  | [] => none
  | c :: r => if c.toNat = 95 then hexStart r else hexStart (c :: r)

/-- The digit part of a Python base-16 numeral: an optional `0x`/`0X` mark,
then digits. -/
def hexBody (s : List Char) : Option ℕ :=
  match s with
  | c0 :: c1 :: r =>
    if c0 = '0' ∧ (c1 = 'x' ∨ c1 = 'X') then hexAfterMark r
    else hexStart s
  | _ => hexStart s

/-- Strip leading and trailing Python whitespace. -/
def stripWS (s : List Char) : List Char :=
  ((s.dropWhile isPySpace).reverse.dropWhile isPySpace).reverse

/-- The whitespace-stripped part of a Python base-16 literal: an optional
sign, then the numeral. -/
def pyIntHexCore : List Char → Option ℤ
  | [] => none
  | c :: r =>
    if c = '+' then (hexBody r).map (fun n => (n : ℤ))
    else if c = '-' then (hexBody r).map (fun n => -(n : ℤ))
    else (hexBody (c :: r)).map (fun n => (n : ℤ))

/-- Python `int(s, 16)`: strip whitespace, optional sign, base-16 numeral.
`none` models the `ValueError` Python raises on a malformed literal. -/
def pyIntHex (s : List Char) : Option ℤ :=
  pyIntHexCore (stripWS s)

/-! ## Python `round` and `f-string` hexadecimal formatting -/

/-- Python `round` on an exact rational: nearest integer, ties to even.
(`Rat.floor` is the executable floor; it agrees with `⌊·⌋`.) -/
def pyRound (q : ℚ) : ℤ :=
  let f := Rat.floor q
  if q - f < 1 / 2 then f
  else if 1 / 2 < q - f then f + 1
  else if Even f then f else f + 1

/-- Lowercase hexadecimal digit character for `n < 16` (as in `f-string`
format `x`). -/
def hexDigitChar (n : ℕ) : Char :=
  if n < 10 then Char.ofNat (48 + n) else Char.ofNat (87 + n)

/-- Hexadecimal digits of `n`, most significant first; `fuel` bounds the
recursion depth (`fuel = n` always suffices). -/
def toHexAux : ℕ → ℕ → List Char → List Char
  | 0, _, acc => acc
  | fuel + 1, n, acc =>
    if n = 0 then acc
    else toHexAux fuel (n / 16) (hexDigitChar (n % 16) :: acc)

/-- Lowercase hexadecimal representation of `n` (Python `f-string` format
`x`): at least one digit, no leading zeros. -/
def toHex (n : ℕ) : List Char :=
  if n = 0 then ['0'] else toHexAux n n []

/-- Python `f-string` format spec `02x`: lowercase hexadecimal, padded with
zeros to width 2. -/
def pyFormat02x (n : ℕ) : List Char :=
  let ds := toHex n
  List.replicate (2 - ds.length) '0' ++ ds

/-! ## The converter functions of `luminvaria.py` -/

/-- `hex_to_rgb(hx)`: parse the three 2-character slices `hx[0:2]`,
`hx[2:4]`, `hx[4:6]` as base-16 integers and divide by 255.  Python slicing
truncates when the string is short; a parse failure in any slice is the
`ValueError` the spec calls `FormatError`. -/
def hex_to_rgb (hx : List Char) : Option (ℚ × ℚ × ℚ) := do
  let r ← pyIntHex (hx.take 2)
  let g ← pyIntHex ((hx.drop 2).take 2)
  let b ← pyIntHex ((hx.drop 4).take 2)
  pure ((r : ℚ) / 255, (g : ℚ) / 255, (b : ℚ) / 255)

/-- One channel of `rgb_to_hex`: values `≤ 0` clamp to byte 0, values
`≥ 1` clamp to byte 255, otherwise `int(round(val * 255))`.  In the open
interval the rounded value is nonnegative, so the `toNat` is exact. -/
def clampByte (val : ℚ) : ℕ :=
  if val ≤ 0 then 0
  else if 1 ≤ val then 255
  else (pyRound (val * 255)).toNat

/-- `rgb_to_hex(rgb)`: clamp each channel and join the three
`f'\x7bval:02x\x7d'` byte strings. -/
def rgb_to_hex (rgb : ℚ × ℚ × ℚ) : List Char :=
  pyFormat02x (clampByte rgb.1) ++ pyFormat02x (clampByte rgb.2.1) ++
    pyFormat02x (clampByte rgb.2.2)

/-! ## Golden-ratio lightness levels -/

/-- The module-level constant `PHI` of `luminvaria.py`, as the exact value
of its decimal literal. -/
def PHI : ℚ :=
  1.61803398874989484820458683436563811772030917980576286213544862270526046281890244970720720418939113748475

/-- `yin_level(level) = (1 / PHI ** (level + 1)) / 2`. -/
def yin_level (level : ℕ) : ℚ :=
  (1 / PHI ^ (level + 1)) / 2

/-- The six neutral-ramp lightness values `J`, in the order the `wheel`
function generates them (three yin levels, then the three yang mirrors),
each scaled by 100. -/
def neutralJs : List ℚ :=
  [yin_level 2 * 100, yin_level 1 * 100, yin_level 0 * 100,
   (1 - yin_level 0) * 100, (1 - yin_level 1) * 100, (1 - yin_level 2) * 100]

/-! ## CIECAM16 pipeline, parameterized by the external library -/

/-- The fields of `CAM_Specification_CIECAM16` that `luminvaria.py`
constructs: lightness `J`, chroma `C`, hue angle `h`. -/
structure CAM_Specification_CIECAM16 where
  J : ℚ
  C : ℚ
  h : ℚ
deriving DecidableEq

/-- The dim-surround `InductionFactors_CIECAM16` bundle built at module
level. -/
structure InductionFactors_CIECAM16 where
  F : ℚ
  c : ℚ
  N_c : ℚ

/-- `viewing_conditions`: F = 0.9, c = 0.59, N_c = 0.9. -/
def viewing_conditions : InductionFactors_CIECAM16 :=
  { F := 0.9, c := 0.59, N_c := 0.9 }

/-- `L_A = 200 / 5`. -/
def L_A : ℚ := 200 / 5

/-- `Y_b = 150 / 5`. -/
def Y_b : ℚ := 150 / 5

/-- The D65 10-degree white point `XYZ_w = [94.811, 100.00, 107.304]`,
which is also what the `TVS_ILLUMINANTS` lookup passed to the appearance
transforms denotes. -/
def XYZ_w : ℚ × ℚ × ℚ := (94.811, 100.00, 107.304)

/-- The numeric conversion functions imported from the external
`colour`-science library.  Their numerics are outside this repository, so
they are abstract here; every palette theorem holds for any behaviour of
these fields, in particular the real one. -/
structure ColourLib where
  CIECAM16_to_XYZ :
    CAM_Specification_CIECAM16 → ℚ × ℚ × ℚ → ℚ → ℚ →
      InductionFactors_CIECAM16 → ℚ × ℚ × ℚ
  XYZ_to_sRGB : ℚ × ℚ × ℚ → ℚ × ℚ × ℚ → ℚ × ℚ × ℚ

/-- `ciecam16_to_xyz(ciecam16)`: the library inverse transform under the
fixed viewing conditions. -/
def ciecam16_to_xyz (lib : ColourLib) (c : CAM_Specification_CIECAM16) :
    ℚ × ℚ × ℚ :=
  lib.CIECAM16_to_XYZ c XYZ_w L_A Y_b viewing_conditions

/-- `xyz_to_rgb(xyz)`: divide the tristimulus values by 100 and apply the
library `XYZ_to_sRGB` under the D65 chromaticity (passed as `XYZ_w`). -/
def xyz_to_rgb (lib : ColourLib) (xyz : ℚ × ℚ × ℚ) : ℚ × ℚ × ℚ :=
  lib.XYZ_to_sRGB (xyz.1 / 100, xyz.2.1 / 100, xyz.2.2 / 100) XYZ_w

/-- `ciecam16_to_hex(ciecam16_color)`. -/
def ciecam16_to_hex (lib : ColourLib) (c : CAM_Specification_CIECAM16) :
    List Char :=
  rgb_to_hex (xyz_to_rgb lib (ciecam16_to_xyz lib c))

/-- `ciecam16_is_within_srgb(ciecam16_color)`:
`all(0 <= val <= 1 for val in rgb_color)` before any clamping. -/
def ciecam16_is_within_srgb (lib : ColourLib)
    (c : CAM_Specification_CIECAM16) : Bool :=
  let rgb_color := xyz_to_rgb lib (ciecam16_to_xyz lib c)
  decide (0 ≤ rgb_color.1 ∧ rgb_color.1 ≤ 1) &&
    decide (0 ≤ rgb_color.2.1 ∧ rgb_color.2.1 ≤ 1) &&
    decide (0 ≤ rgb_color.2.2 ∧ rgb_color.2.2 ≤ 1)

/-! ## The hue-wheel chroma search of `wheel()` -/

/-- The CIECAM16 specification `wheel` builds for slice `i`:
`J = 50`, `C = c`, `h = (360 / slices) * i`. -/
def wheelSpec (slices c i : ℕ) : CAM_Specification_CIECAM16 :=
  { J := 50, C := (c : ℚ), h := (360 / (slices : ℚ)) * (i : ℚ) }

/-- Result of one pass of the inner loop of `wheel()` at a fixed candidate
chroma: the accumulated `hues` hex strings, the `out_of_gamut` flag, and
(instrumentation for the resource bound) the number of
`ciecam16_is_within_srgb` calls made. -/
structure WheelInnerRes where
  hexes : List (List Char)
  oog : Bool
  calls : ℕ
deriving DecidableEq

/-- The inner loop `for i in range(0, slices)` of `wheel()`, starting at
slice index `i` with `fuel` iterations remaining: append the hex string of
each in-gamut slice, set `out_of_gamut` and break on the first failure. -/
def wheelInnerAux (lib : ColourLib) (slices c : ℕ) : ℕ → ℕ → WheelInnerRes
  | _, 0 => { hexes := [], oog := false, calls := 0 }
  | i, fuel + 1 =>
    if ciecam16_is_within_srgb lib (wheelSpec slices c i) then
      let r := wheelInnerAux lib slices c (i + 1) fuel
      { hexes := ciecam16_to_hex lib (wheelSpec slices c i) :: r.hexes,
        oog := r.oog, calls := r.calls + 1 }
    else
      { hexes := [], oog := true, calls := 1 }

/-- One full inner-loop pass of `wheel()` at candidate chroma `c`. -/
def wheelInner (lib : ColourLib) (slices c : ℕ) : WheelInnerRes :=
  wheelInnerAux lib slices c 0 slices

/-- Result of the outer chroma search of `wheel()`: the final `hues` row,
the chosen chroma (`none` when the loop exhausts `range(100, 0, -1)`
without a full in-gamut pass), and instrumentation counting the
candidate-chroma iterations and the total classifier calls. -/
structure WheelRes where
  hues : List (List Char)
  chosen : Option ℕ
  iters : ℕ
  calls : ℕ
deriving DecidableEq

/-- The outer loop `for c in range(100, 0, -1)` of `wheel()`, with `c`
counting down from `c0`.  On a pass with no out-of-gamut slice the loop
breaks, announcing `c`; when the range is exhausted the `hues` of the last
(partial) attempt at `c = 1` remain. -/
def wheelSearchFrom (lib : ColourLib) (slices : ℕ) : ℕ → WheelRes
  | 0 => { hues := [], chosen := none, iters := 0, calls := 0 }
  | c + 1 =>
    let r := wheelInner lib slices (c + 1)
    if r.oog then
      if c = 0 then
        { hues := r.hexes, chosen := none, iters := 1, calls := r.calls }
      else
        let w := wheelSearchFrom lib slices c
        { hues := w.hues, chosen := w.chosen, iters := w.iters + 1,
          calls := w.calls + r.calls }
    else
      { hues := r.hexes, chosen := some (c + 1), iters := 1, calls := r.calls }

/-- The chroma search of `wheel()`: `slices = 6`, candidate chromas from
100 down to 1. -/
def wheel (lib : ColourLib) : WheelRes :=
  wheelSearchFrom lib 6 100

/-- One channel byte of the spec's unclamped formula
`round(val * 255)` (what `rgb_to_hex` computes when clamping is a no-op). -/
def noClampByte (val : ℚ) : ℕ :=
  (pyRound (val * 255)).toNat

/-- The hex string `rgb_to_hex` would produce with clamping removed. -/
def noClampHex (rgb : ℚ × ℚ × ℚ) : List Char :=
  pyFormat02x (noClampByte rgb.1) ++ pyFormat02x (noClampByte rgb.2.1) ++
    pyFormat02x (noClampByte rgb.2.2)

/-- A concrete stand-in for the external library, used to evaluate the
search theorems on a closed instance: its inverse appearance transform is
the constant origin, so every specification is in gamut. -/
def testLib : ColourLib :=
  { CIECAM16_to_XYZ := fun _ _ _ _ _ => (0, 0, 0),
    XYZ_to_sRGB := fun v _ => v }


/-! ## Rounding and clamping lemmas -/

theorem ratFloor_eq_floor (q : ℚ) : (Rat.floor q : ℚ) = (⌊q⌋ : ℚ) := by
  rw [Rat.floor_def', Rat.floor_def]

theorem ratFloor_eq_floor' (q : ℚ) : Rat.floor q = ⌊q⌋ := by
  rw [Rat.floor_def', Rat.floor_def]

theorem pyRound_intCast (k : ℤ) : pyRound (k : ℚ) = k := by
  have hf : Rat.floor ((k : ℚ)) = k := by
    rw [ratFloor_eq_floor', Int.floor_intCast]
  simp only [pyRound, hf]
  norm_num

theorem pyRound_nonneg {q : ℚ} (h : 0 ≤ q) : 0 ≤ pyRound q := by
  have hf : (0 : ℤ) ≤ Rat.floor q := by
    rw [ratFloor_eq_floor']
    exact Int.floor_nonneg.2 h
  simp only [pyRound]
  split
  · exact hf
  · split
    · omega
    · split
      · exact hf
      · omega

theorem pyRound_le {q : ℚ} {m : ℤ} (h : q < (m : ℚ)) : pyRound q ≤ m := by
  have hf : Rat.floor q < m := by
    rw [ratFloor_eq_floor']
    exact Int.floor_lt.2 h
  have hfq : (Rat.floor q : ℚ) ≤ q := by
    rw [ratFloor_eq_floor']
    exact Int.floor_le q
  simp only [pyRound]
  split
  · omega
  · split
    · omega
    · split
      · omega
      · omega

theorem pyRound_mul_natCast (k : ℕ) : pyRound ((k : ℚ)) = k := by
  have := pyRound_intCast (k : ℤ)
  rw [Int.cast_natCast] at this
  exact this

theorem clampByte_le_255 (v : ℚ) : clampByte v ≤ 255 := by
  unfold clampByte
  split
  · omega
  · split
    · omega
    · rename_i h0 h1
      have hv : v * 255 < ((255 : ℤ) : ℚ) := by
        push_cast
        nlinarith [not_le.1 h1]
      have := pyRound_le hv
      omega

theorem clampByte_eq_round_clamp (v : ℚ) :
    (clampByte v : ℤ) = pyRound (min 1 (max 0 v) * 255) := by
  unfold clampByte
  split
  · rename_i h0
    have : min 1 (max 0 v) = 0 := by
      rw [max_eq_left h0]
      exact min_eq_right zero_le_one
    rw [this, zero_mul]
    have := pyRound_intCast 0
    push_cast at this ⊢
    rw [this]
  · split
    · rename_i h0 h1
      have : min 1 (max 0 v) = 1 := by
        rw [max_eq_right (le_trans zero_le_one h1)]
        exact min_eq_left h1
      rw [this, one_mul]
      have h255 := pyRound_intCast 255
      push_cast at h255 ⊢
      rw [h255]
    · rename_i h0 h1
      have hv0 : 0 < v := lt_of_not_le h0
      have : min 1 (max 0 v) = v := by
        rw [max_eq_right hv0.le]
        exact min_eq_right (le_of_not_le h1)
      rw [this]
      have hnn : 0 ≤ pyRound (v * 255) := pyRound_nonneg (by positivity)
      omega

theorem clampByte_roundtrip {k : ℕ} (hk : k ≤ 255) :
    clampByte ((k : ℚ) / 255) = k := by
  unfold clampByte
  rcases Nat.eq_zero_or_pos k with h0 | h0
  · subst h0
    norm_num
  · have hpos : (0 : ℚ) < (k : ℚ) / 255 := by positivity
    rw [if_neg (not_le.2 hpos)]
    rcases eq_or_lt_of_le hk with h255 | h255
    · subst h255
      norm_num
    · have hlt : (k : ℚ) / 255 < 1 := by
        rw [div_lt_one (by norm_num)]
        exact_mod_cast h255
      rw [if_neg (not_le.2 hlt)]
      have : (k : ℚ) / 255 * 255 = (k : ℚ) := by
        field_simp
      rw [this, pyRound_mul_natCast]
      simp

theorem clampByte_eq_noClamp {v : ℚ} (h0 : 0 ≤ v) (h1 : v ≤ 1) :
    clampByte v = noClampByte v := by
  unfold clampByte noClampByte
  split
  · rename_i hle
    have hv : v = 0 := le_antisymm hle h0
    subst hv
    rw [zero_mul]
    have := pyRound_intCast 0
    push_cast at this
    rw [this]
    simp
  · split
    · rename_i _ hge
      have hv : v = 1 := le_antisymm h1 hge
      subst hv
      rw [one_mul]
      have h255 := pyRound_intCast 255
      push_cast at h255
      rw [h255]
      simp
    · rfl

/-! ## Hexadecimal formatting lemmas -/

theorem hexDigitChar_isHexCh : ∀ m : ℕ, m < 16 → isHexCh (hexDigitChar m) = true := by
  decide

set_option maxRecDepth 4096 in
theorem pyFormat02x_eq_digits : ∀ n : ℕ, n < 256 →
    pyFormat02x n = [hexDigitChar (n / 16), hexDigitChar (n % 16)] := by
  decide

/-! ## Character-class and parsing lemmas -/

theorem isHexCh_ranges {c : Char} (h : isHexCh c = true) :
    (48 ≤ c.toNat ∧ c.toNat ≤ 57) ∨ (97 ≤ c.toNat ∧ c.toNat ≤ 102) ∨
      (65 ≤ c.toNat ∧ c.toNat ≤ 70) := by
  simpa [isHexCh, Bool.or_eq_true, Bool.and_eq_true, decide_eq_true_eq,
    or_assoc] using h

theorem hexVal_le_15 {c : Char} (h : isHexCh c = true) : hexVal c ≤ 15 := by
  have hr := isHexCh_ranges h
  unfold hexVal
  split
  · omega
  · split
    · omega
    · omega

theorem isHexCh_not_pySpace {c : Char} (h : isHexCh c = true) :
    isPySpace c = false := by
  have hr := isHexCh_ranges h
  simp only [isPySpace, Bool.or_eq_false_iff, decide_eq_false_iff_not]
  omega

theorem hexDigitChar_hexVal {c : Char} (h : isHexCh c = true) :
    hexDigitChar (hexVal c) = c.toLower := by
  have hr := isHexCh_ranges h
  simp only [hexDigitChar, hexVal, Char.toLower]
  rcases hr with ⟨h1, h2⟩ | ⟨h1, h2⟩ | ⟨h1, h2⟩
  · rw [if_pos (by omega : c.toNat ≤ 57), if_pos (by omega : c.toNat - 48 < 10),
      if_neg (by omega : ¬(c.toNat ≥ 65 ∧ c.toNat ≤ 90))]
    have he : 48 + (c.toNat - 48) = c.toNat := by omega
    rw [he, Char.ofNat_toNat]
  · rw [if_neg (by omega : ¬c.toNat ≤ 57), if_pos (by omega : 97 ≤ c.toNat),
      if_neg (by omega : ¬(c.toNat - 87 < 10)),
      if_neg (by omega : ¬(c.toNat ≥ 65 ∧ c.toNat ≤ 90))]
    have he : 87 + (c.toNat - 87) = c.toNat := by omega
    rw [he, Char.ofNat_toNat]
  · rw [if_neg (by omega : ¬c.toNat ≤ 57), if_neg (by omega : ¬97 ≤ c.toNat),
      if_neg (by omega : ¬(c.toNat - 55 < 10)),
      if_pos (by omega : c.toNat ≥ 65 ∧ c.toNat ≤ 90)]
    have he : 87 + (c.toNat - 55) = c.toNat + 32 := by omega
    rw [he]

theorem dropWhile_eq_self_of_all {p : Char → Bool} {l : List Char}
    (h : ∀ c ∈ l, p c = false) : l.dropWhile p = l := by
  cases l with
  | nil => rfl
  | cons a t =>
    rw [List.dropWhile_cons, h a (List.mem_cons_self a t)]
    simp

theorem stripWS_eq_self {l : List Char} (h : ∀ c ∈ l, isHexCh c = true) :
    stripWS l = l := by
  unfold stripWS
  rw [dropWhile_eq_self_of_all (fun c hc => isHexCh_not_pySpace (h c hc)),
    dropWhile_eq_self_of_all
      (fun c hc => isHexCh_not_pySpace (h c (List.mem_reverse.1 hc))),
    List.reverse_reverse]

theorem hexTail_cons_hex {c : Char} (h : isHexCh c = true) (r : List Char)
    (acc : ℕ) : hexTail (c :: r) acc = hexTail r (16 * acc + hexVal c) := by
  rw [hexTail.eq_def]
  simp [h]

theorem hexStart_pair {a b : Char} (ha : isHexCh a = true)
    (hb : isHexCh b = true) :
    hexStart [a, b] = some (16 * hexVal a + hexVal b) := by
  simp only [hexStart, ha, if_true, hexTail_cons_hex hb, hexTail]
  simp [hb]

theorem hexBody_pair {a b : Char} (ha : isHexCh a = true)
    (hb : isHexCh b = true) :
    hexBody [a, b] = some (16 * hexVal a + hexVal b) := by
  have hbx : ¬(a = '0' ∧ (b = 'x' ∨ b = 'X')) := by
    rintro ⟨_, hx | hx⟩
    · exact absurd (hx ▸ hb) (by decide)
    · exact absurd (hx ▸ hb) (by decide)
  have hred : hexBody [a, b] =
      if a = '0' ∧ (b = 'x' ∨ b = 'X') then hexAfterMark []
      else hexStart [a, b] := rfl
  rw [hred, if_neg hbx]
  exact hexStart_pair ha hb

theorem hexBody_single {a : Char} (ha : isHexCh a = true) :
    hexBody [a] = some (hexVal a) := by
  have hred : hexBody [a] = hexStart [a] := rfl
  rw [hred]
  simp [hexStart, ha, hexTail]

theorem pyIntHex_pair {a b : Char} (ha : isHexCh a = true)
    (hb : isHexCh b = true) :
    pyIntHex [a, b] = some ((16 * hexVal a + hexVal b : ℕ) : ℤ) := by
  have hp : a ≠ '+' := fun hEq => absurd (hEq ▸ ha) (by decide)
  have hm : a ≠ '-' := fun hEq => absurd (hEq ▸ ha) (by decide)
  have hall : ∀ c ∈ [a, b], isHexCh c = true := by
    intro c hc
    rcases List.mem_cons.1 hc with rfl | hc
    · exact ha
    · rcases List.mem_cons.1 hc with rfl | hc
      · exact hb
      · cases hc
  unfold pyIntHex
  rw [stripWS_eq_self hall]
  simp [pyIntHexCore, hp, hm, hexBody_pair ha hb]

theorem pyIntHex_single {a : Char} (ha : isHexCh a = true) :
    pyIntHex [a] = some ((hexVal a : ℕ) : ℤ) := by
  have hp : a ≠ '+' := fun hEq => absurd (hEq ▸ ha) (by decide)
  have hm : a ≠ '-' := fun hEq => absurd (hEq ▸ ha) (by decide)
  have hall : ∀ c ∈ [a], isHexCh c = true := by
    intro c hc
    rcases List.mem_cons.1 hc with rfl | hc
    · exact ha
    · cases hc
  unfold pyIntHex
  rw [stripWS_eq_self hall]
  simp [pyIntHexCore, hp, hm, hexBody_single ha]

theorem pyFormat02x_pair {k : ℕ} (hk : k ≤ 255) :
    pyFormat02x k = [hexDigitChar (k / 16), hexDigitChar (k % 16)] :=
  pyFormat02x_eq_digits k (by omega)

theorem pyFormat02x_length {k : ℕ} (hk : k ≤ 255) :
    (pyFormat02x k).length = 2 := by
  rw [pyFormat02x_pair hk]
  rfl

theorem pyFormat02x_all_hex {k : ℕ} (hk : k ≤ 255) :
    ∀ c ∈ pyFormat02x k, isHexCh c = true := by
  rw [pyFormat02x_pair hk]
  intro c hc
  rcases List.mem_cons.1 hc with rfl | hc
  · exact hexDigitChar_isHexCh _ (by omega)
  · rcases List.mem_cons.1 hc with rfl | hc
    · exact hexDigitChar_isHexCh _ (by omega)
    · cases hc

theorem hex_to_rgb_eq_of_six {c1 c2 c3 c4 c5 c6 : Char}
    (h1 : isHexCh c1 = true) (h2 : isHexCh c2 = true)
    (h3 : isHexCh c3 = true) (h4 : isHexCh c4 = true)
    (h5 : isHexCh c5 = true) (h6 : isHexCh c6 = true) :
    hex_to_rgb [c1, c2, c3, c4, c5, c6] =
      some (((16 * hexVal c1 + hexVal c2 : ℕ) : ℚ) / 255,
        ((16 * hexVal c3 + hexVal c4 : ℕ) : ℚ) / 255,
        ((16 * hexVal c5 + hexVal c6 : ℕ) : ℚ) / 255) := by
  have e1 : [c1, c2, c3, c4, c5, c6].take 2 = [c1, c2] := rfl
  have e2 : ([c1, c2, c3, c4, c5, c6].drop 2).take 2 = [c3, c4] := rfl
  have e3 : ([c1, c2, c3, c4, c5, c6].drop 4).take 2 = [c5, c6] := rfl
  rw [hex_to_rgb, e1, e2, e3, pyIntHex_pair h1 h2, pyIntHex_pair h3 h4,
    pyIntHex_pair h5 h6]
  simp

theorem hex_to_rgb_eq_of_five {c1 c2 c3 c4 c5 : Char}
    (h1 : isHexCh c1 = true) (h2 : isHexCh c2 = true)
    (h3 : isHexCh c3 = true) (h4 : isHexCh c4 = true)
    (h5 : isHexCh c5 = true) :
    hex_to_rgb [c1, c2, c3, c4, c5] =
      some (((16 * hexVal c1 + hexVal c2 : ℕ) : ℚ) / 255,
        ((16 * hexVal c3 + hexVal c4 : ℕ) : ℚ) / 255,
        ((hexVal c5 : ℕ) : ℚ) / 255) := by
  have e1 : [c1, c2, c3, c4, c5].take 2 = [c1, c2] := rfl
  have e2 : ([c1, c2, c3, c4, c5].drop 2).take 2 = [c3, c4] := rfl
  have e3 : ([c1, c2, c3, c4, c5].drop 4).take 2 = [c5] := rfl
  rw [hex_to_rgb, e1, e2, e3, pyIntHex_pair h1 h2, pyIntHex_pair h3 h4,
    pyIntHex_single h5]
  simp

theorem byte_hex_roundtrip {a b : Char} (ha : isHexCh a = true)
    (hb : isHexCh b = true) :
    pyFormat02x (clampByte (((16 * hexVal a + hexVal b : ℕ) : ℚ) / 255)) =
      [a.toLower, b.toLower] := by
  have hva := hexVal_le_15 ha
  have hvb := hexVal_le_15 hb
  have hk : 16 * hexVal a + hexVal b ≤ 255 := by omega
  rw [clampByte_roundtrip hk, pyFormat02x_pair hk]
  have hdiv : (16 * hexVal a + hexVal b) / 16 = hexVal a := by omega
  have hmod : (16 * hexVal a + hexVal b) % 16 = hexVal b := by omega
  rw [hdiv, hmod, hexDigitChar_hexVal ha, hexDigitChar_hexVal hb]

/-- C5: `rgb_to_hex` is total on rational triples: its output always has
exactly 6 hexadecimal-digit characters, it is the concatenation of the
three clamped channel bytes, and every channel byte equals
`round(clamp(v, 0, 1) * 255)` (Python banker's rounding) and lies in
`[0, 255]`. -/
theorem rgb_to_hex_total (r g b : ℚ) :
    ((rgb_to_hex (r, g, b)).length = 6 ∧
      ∀ ch ∈ rgb_to_hex (r, g, b), isHexCh ch = true) ∧
    rgb_to_hex (r, g, b) =
      pyFormat02x (clampByte r) ++ pyFormat02x (clampByte g) ++
        pyFormat02x (clampByte b) ∧
    ∀ v : ℚ, (clampByte v : ℤ) = pyRound (min 1 (max 0 v) * 255) ∧
      clampByte v ≤ 255 := by
  refine ⟨⟨?_, ?_⟩, rfl, fun v => ⟨clampByte_eq_round_clamp v, clampByte_le_255 v⟩⟩
  · rw [rgb_to_hex]
    simp [List.length_append, pyFormat02x_length (clampByte_le_255 r),
      pyFormat02x_length (clampByte_le_255 g),
      pyFormat02x_length (clampByte_le_255 b)]
  · rw [rgb_to_hex]
    intro ch hch
    rcases List.mem_append.1 hch with hch | hch
    · rcases List.mem_append.1 hch with hch | hch
      · exact pyFormat02x_all_hex (clampByte_le_255 r) ch hch
      · exact pyFormat02x_all_hex (clampByte_le_255 g) ch hch
    · exact pyFormat02x_all_hex (clampByte_le_255 b) ch hch

/-- C2: for every string of exactly 6 hexadecimal digits, parsing with
`hex_to_rgb` and re-encoding with `rgb_to_hex` reproduces the string up to
lower-casing of the digits (the formatter always emits lowercase). -/
theorem hex_roundtrip (s : List Char) (h6 : s.length = 6)
    (hhex : ∀ c ∈ s, isHexCh c = true) :
    ∃ t, hex_to_rgb s = some t ∧ rgb_to_hex t = s.map Char.toLower := by
  rcases s with _ | ⟨c1, s⟩
  · simp at h6
  rcases s with _ | ⟨c2, s⟩
  · simp at h6
  rcases s with _ | ⟨c3, s⟩
  · simp at h6
  rcases s with _ | ⟨c4, s⟩
  · simp at h6
  rcases s with _ | ⟨c5, s⟩
  · simp at h6
  rcases s with _ | ⟨c6, s⟩
  · simp at h6
  obtain rfl : s = [] := by
    simpa using h6
  have h1 : isHexCh c1 = true := hhex c1 (by simp)
  have h2 : isHexCh c2 = true := hhex c2 (by simp)
  have h3 : isHexCh c3 = true := hhex c3 (by simp)
  have h4 : isHexCh c4 = true := hhex c4 (by simp)
  have h5 : isHexCh c5 = true := hhex c5 (by simp)
  have h6' : isHexCh c6 = true := hhex c6 (by simp)
  refine ⟨_, hex_to_rgb_eq_of_six h1 h2 h3 h4 h5 h6', ?_⟩
  rw [rgb_to_hex]
  simp only []
  rw [byte_hex_roundtrip h1 h2, byte_hex_roundtrip h3 h4,
    byte_hex_roundtrip h5 h6']
  simp

/-- C2 witness: the concrete upper-case input `"4488FF"` parses and
re-encodes to its lower-case form. -/
theorem hex_roundtrip_wit :
    ∃ t, hex_to_rgb ['4', '4', '8', '8', 'F', 'F'] = some t ∧
      rgb_to_hex t = ['4', '4', '8', '8', 'F', 'F'].map Char.toLower :=
  hex_roundtrip _ (by decide) (by decide)

/-- C4 counterexample: the 5-character string `"4488f"` is not a string of
exactly 6 hex digits, yet `hex_to_rgb` succeeds on it (Python slices
truncate, and `int("f", 16)` parses), refuting "fails ... on every string
that is not exactly 6 hex digits". -/
theorem hex_to_rgb_five_digit_cex :
    ['4', '4', '8', '8', 'f'].length ≠ 6 ∧
      (hex_to_rgb ['4', '4', '8', '8', 'f']).isSome = true := by
  constructor
  · decide
  · decide

/-- C4 (amended): `hex_to_rgb` succeeds on every string of exactly 6 hex
digits, but it does not fail on every other string: it also succeeds, for
example, on every string of exactly 5 hex digits (the slice `hx[4:6]` is
then a single hex digit, which Python `int(.., 16)` accepts). -/
theorem hex_to_rgb_succeeds_amended :
    (∀ s : List Char, s.length = 6 → (∀ c ∈ s, isHexCh c = true) →
      (hex_to_rgb s).isSome = true) ∧
    (∀ s : List Char, s.length = 5 → (∀ c ∈ s, isHexCh c = true) →
      (hex_to_rgb s).isSome = true) := by
  constructor
  · intro s h6 hhex
    rcases s with _ | ⟨c1, s⟩
    · simp at h6
    rcases s with _ | ⟨c2, s⟩
    · simp at h6
    rcases s with _ | ⟨c3, s⟩
    · simp at h6
    rcases s with _ | ⟨c4, s⟩
    · simp at h6
    rcases s with _ | ⟨c5, s⟩
    · simp at h6
    rcases s with _ | ⟨c6, s⟩
    · simp at h6
    obtain rfl : s = [] := by simpa using h6
    rw [hex_to_rgb_eq_of_six (hhex c1 (by simp)) (hhex c2 (by simp))
      (hhex c3 (by simp)) (hhex c4 (by simp)) (hhex c5 (by simp))
      (hhex c6 (by simp))]
    rfl
  · intro s h5 hhex
    rcases s with _ | ⟨c1, s⟩
    · simp at h5
    rcases s with _ | ⟨c2, s⟩
    · simp at h5
    rcases s with _ | ⟨c3, s⟩
    · simp at h5
    rcases s with _ | ⟨c4, s⟩
    · simp at h5
    rcases s with _ | ⟨c5, s⟩
    · simp at h5
    obtain rfl : s = [] := by simpa using h5
    rw [hex_to_rgb_eq_of_five (hhex c1 (by simp)) (hhex c2 (by simp))
      (hhex c3 (by simp)) (hhex c4 (by simp)) (hhex c5 (by simp))]
    rfl

/-- C4 witness: the amended statement evaluated on `"4488ff"` (6 hex
digits) and `"4488f"` (5 hex digits). -/
theorem hex_to_rgb_succeeds_amended_wit :
    (hex_to_rgb ['4', '4', '8', '8', 'f', 'f']).isSome = true ∧
      (hex_to_rgb ['4', '4', '8', '8', 'f']).isSome = true :=
  ⟨hex_to_rgb_succeeds_amended.1 _ (by decide) (by decide),
    hex_to_rgb_succeeds_amended.2 _ (by decide) (by decide)⟩

/-- C7: `yin_level` is strictly decreasing, and the six neutral-ramp `J`
values, in generation order and scaled by 100, form a strictly increasing
sequence whose `i`-th and `(5-i)`-th members sum to 100 (symmetry about
50). -/
theorem yin_level_ramp :
    (∀ n : ℕ, yin_level (n + 1) < yin_level n) ∧
    List.Chain' (fun a b => a < b) neutralJs ∧
    (neutralJs[0]! + neutralJs[5]! = 100 ∧
      neutralJs[1]! + neutralJs[4]! = 100 ∧
      neutralJs[2]! + neutralJs[3]! = 100) := by
  have hdec : ∀ n : ℕ, yin_level (n + 1) < yin_level n := by
    intro n
    have h1 : (1 : ℚ) < PHI := by norm_num [PHI]
    have hp : (0 : ℚ) < PHI ^ (n + 1) := by positivity
    have hlt : PHI ^ (n + 1) < PHI ^ (n + 2) := pow_lt_pow_right₀ h1 (by omega)
    have := one_div_lt_one_div_of_lt hp hlt
    unfold yin_level
    linarith
  have hhalf : yin_level 0 < 1 / 2 := by
    norm_num [yin_level, PHI]
  refine ⟨hdec, ?_, ?_, ?_, ?_⟩
  · have h21 := hdec 1
    have h10 := hdec 0
    simp only [neutralJs, List.chain'_cons, List.chain'_singleton]
    refine ⟨by linarith, by linarith, by linarith, by linarith, by linarith, trivial⟩
  · simp only [neutralJs, List.getElem!_cons_zero, List.getElem!_cons_succ]
    ring
  · simp only [neutralJs, List.getElem!_cons_zero, List.getElem!_cons_succ]
    ring
  · simp only [neutralJs, List.getElem!_cons_zero, List.getElem!_cons_succ]
    ring

/-! ## Wheel-search lemmas -/

theorem wheelInnerAux_oog_false_iff (lib : ColourLib) (s c : ℕ) :
    ∀ fuel i, (wheelInnerAux lib s c i fuel).oog = false ↔
      ∀ j < fuel, ciecam16_is_within_srgb lib (wheelSpec s c (i + j)) = true := by
  intro fuel
  induction fuel with
  | zero =>
    intro i
    simp [wheelInnerAux]
  | succ fuel ih =>
    intro i
    by_cases hw : ciecam16_is_within_srgb lib (wheelSpec s c i) = true
    · rw [wheelInnerAux, if_pos hw]
      simp only []
      constructor
      · intro h j hj
        rcases Nat.eq_zero_or_pos j with rfl | hj0
        · simpa using hw
        · have hrec := (ih (i + 1)).1 h (j - 1) (by omega)
          have he : i + 1 + (j - 1) = i + j := by omega
          rwa [he] at hrec
      · intro h
        apply (ih (i + 1)).2
        intro j hj
        have hstep := h (j + 1) (by omega)
        have he : i + (j + 1) = i + 1 + j := by omega
        rwa [he] at hstep
    · rw [wheelInnerAux, if_neg hw]
      simp only []
      constructor
      · intro h
        simp at h
      · intro h
        exact absurd (by simpa using h 0 (by omega)) hw

theorem wheelInnerAux_hexes (lib : ColourLib) (s c : ℕ) :
    ∀ fuel i,
      (∀ j < fuel, ciecam16_is_within_srgb lib (wheelSpec s c (i + j)) = true) →
      (wheelInnerAux lib s c i fuel).hexes.length = fuel ∧
      ∀ j < fuel, (wheelInnerAux lib s c i fuel).hexes[j]? =
        some (ciecam16_to_hex lib (wheelSpec s c (i + j))) := by
  intro fuel
  induction fuel with
  | zero =>
    intro i _
    constructor
    · simp [wheelInnerAux]
    · intro j hj
      omega
  | succ fuel ih =>
    intro i hall
    have hw : ciecam16_is_within_srgb lib (wheelSpec s c i) = true := by
      simpa using hall 0 (by omega)
    have hrest : ∀ j < fuel,
        ciecam16_is_within_srgb lib (wheelSpec s c (i + 1 + j)) = true := by
      intro j hj
      have := hall (j + 1) (by omega)
      have he : i + (j + 1) = i + 1 + j := by omega
      rwa [he] at this
    obtain ⟨ihlen, ihget⟩ := ih (i + 1) hrest
    rw [wheelInnerAux, if_pos hw]
    simp only []
    constructor
    · simpa using ihlen
    · intro j hj
      rcases Nat.eq_zero_or_pos j with rfl | hj0
      · simp
    
      · have he : i + 1 + (j - 1) = i + j := by omega
        have := ihget (j - 1) (by omega)
        rw [he] at this
        have hj1 : j = (j - 1) + 1 := by omega
        rw [hj1, List.getElem?_cons_succ]
        have he2 : i + (j - 1 + 1) = i + j := by omega
        rw [he2]
        exact this

theorem wheelInnerAux_calls_le (lib : ColourLib) (s c : ℕ) :
    ∀ fuel i, (wheelInnerAux lib s c i fuel).calls ≤ fuel := by
  intro fuel
  induction fuel with
  | zero =>
    intro i
    simp [wheelInnerAux]
  | succ fuel ih =>
    intro i
    rw [wheelInnerAux]
    split
    · simp only []
      have := ih (i + 1)
      omega
    · simp only []
      omega

theorem wheelSearchFrom_chosen_sound (lib : ColourLib) (s : ℕ) :
    ∀ c0 c, (wheelSearchFrom lib s c0).chosen = some c →
      1 ≤ c ∧ c ≤ c0 ∧ (wheelInner lib s c).oog = false ∧
      ∀ c', c < c' → c' ≤ c0 → (wheelInner lib s c').oog = true := by
  intro c0
  induction c0 with
  | zero =>
    intro c h
    simp [wheelSearchFrom] at h
  | succ c0 ih =>
    intro c h
    rw [wheelSearchFrom] at h
    by_cases hoog : (wheelInner lib s (c0 + 1)).oog = true
    · rw [if_pos hoog] at h
      by_cases hc0 : c0 = 0
      · subst hc0
        rw [if_pos rfl] at h
        simp at h
      · rw [if_neg hc0] at h
        simp only [] at h
        obtain ⟨h1, h2, h3, h4⟩ := ih c h
        refine ⟨h1, by omega, h3, ?_⟩
        intro c' hc1 hc2
        by_cases hceq : c' = c0 + 1
        · subst hceq
          exact hoog
        · exact h4 c' hc1 (by omega)
    · rw [if_neg hoog] at h
      simp only [] at h
      obtain rfl : c = c0 + 1 := by
        simpa using h.symm
      refine ⟨by omega, le_refl _, by simpa using hoog, ?_⟩
      intro c' hc1 hc2
      omega

theorem wheelSearchFrom_chosen_complete (lib : ColourLib) (s : ℕ) :
    ∀ c0 cw, 1 ≤ cw → cw ≤ c0 → (wheelInner lib s cw).oog = false →
      ∃ c, (wheelSearchFrom lib s c0).chosen = some c ∧ cw ≤ c := by
  intro c0
  induction c0 with
  | zero =>
    intro cw h1 h2 _
    omega
  | succ c0 ih =>
    intro cw h1 h2 hcw
    by_cases hoog : (wheelInner lib s (c0 + 1)).oog = true
    · have hne : cw ≠ c0 + 1 := by
        intro hEq
        rw [hEq, hoog] at hcw
        cases hcw
      have hc0 : c0 ≠ 0 := by omega
      obtain ⟨c, hc, hle⟩ := ih cw h1 (by omega) hcw
      refine ⟨c, ?_, hle⟩
      rw [wheelSearchFrom, if_pos hoog, if_neg hc0]
      exact hc
    · refine ⟨c0 + 1, ?_, h2⟩
      rw [wheelSearchFrom, if_neg hoog]

theorem wheelSearchFrom_hues_of_chosen (lib : ColourLib) (s : ℕ) :
    ∀ c0 c, (wheelSearchFrom lib s c0).chosen = some c →
      (wheelSearchFrom lib s c0).hues = (wheelInner lib s c).hexes := by
  intro c0
  induction c0 with
  | zero =>
    intro c h
    simp [wheelSearchFrom] at h
  | succ c0 ih =>
    intro c h
    rw [wheelSearchFrom] at h ⊢
    by_cases hoog : (wheelInner lib s (c0 + 1)).oog = true
    · rw [if_pos hoog] at h ⊢
      by_cases hc0 : c0 = 0
      · subst hc0
        rw [if_pos rfl] at h
        simp at h
      · rw [if_neg hc0] at h ⊢
        simp only [] at h ⊢
        exact ih c h
    · rw [if_neg hoog] at h ⊢
      simp only [] at h ⊢
      obtain rfl : c = c0 + 1 := by
        simpa using h.symm
      rfl

theorem wheelSearchFrom_bounds (lib : ColourLib) (s : ℕ) :
    ∀ c0, (wheelSearchFrom lib s c0).iters ≤ c0 ∧
      (wheelSearchFrom lib s c0).calls ≤ c0 * s := by
  intro c0
  induction c0 with
  | zero =>
    simp [wheelSearchFrom]
  | succ c0 ih =>
    have hinner : (wheelInner lib s (c0 + 1)).calls ≤ s :=
      wheelInnerAux_calls_le lib s (c0 + 1) s 0
    rw [wheelSearchFrom]
    by_cases hoog : (wheelInner lib s (c0 + 1)).oog = true
    · rw [if_pos hoog]
      by_cases hc0 : c0 = 0
      · subst hc0
        rw [if_pos rfl]
        simp only []
        constructor
        · omega
        · omega
      · rw [if_neg hc0]
        simp only []
        obtain ⟨ih1, ih2⟩ := ih
        constructor
        · omega
        · have : (c0 + 1) * s = c0 * s + s := by ring
          omega
    · rw [if_neg hoog]
      simp only []
      constructor
      · omega
      · have : (c0 + 1) * s = c0 * s + s := by ring
        omega

theorem wheelInner_oog_false_iff (lib : ColourLib) (s c : ℕ) :
    (wheelInner lib s c).oog = false ↔
      ∀ i < s, ciecam16_is_within_srgb lib (wheelSpec s c i) = true := by
  unfold wheelInner
  rw [wheelInnerAux_oog_false_iff]
  constructor
  · intro h i hi
    simpa using h i hi
  · intro h i hi
    simpa using h i hi

theorem wheelSearchFrom_succ_found {lib : ColourLib} {s c : ℕ}
    (h : (wheelInner lib s (c + 1)).oog = false) :
    wheelSearchFrom lib s (c + 1) =
      { hues := (wheelInner lib s (c + 1)).hexes, chosen := some (c + 1),
        iters := 1, calls := (wheelInner lib s (c + 1)).calls } := by
  rw [wheelSearchFrom, if_neg (by simp [h])]

theorem testLib_within (sp : CAM_Specification_CIECAM16) :
    ciecam16_is_within_srgb testLib sp = true := by
  simp [ciecam16_is_within_srgb, xyz_to_rgb, ciecam16_to_xyz, testLib]

theorem testLib_chosen : (wheel testLib).chosen = some 100 := by
  have hoog : (wheelInner testLib 6 (99 + 1)).oog = false := by
    rw [wheelInner_oog_false_iff]
    intro i _
    exact testLib_within _
  have h100 : (100 : ℕ) = 99 + 1 := by norm_num
  show (wheelSearchFrom testLib 6 100).chosen = some 100
  rw [h100, wheelSearchFrom_succ_found hoog]

/-- C1: whenever the `wheel()` chroma search announces a chroma `c` (the
break branch is taken), `c` lies in `[1, 100]`, every one of the six hues
at `J = 50` is accepted by the gamut classifier at chroma `c`, and every
larger candidate in `[1, 100]` has at least one rejected hue — i.e. `c` is
the maximum integer in `[1, 100]` whose whole hue wheel is in gamut.  This
holds for every behaviour `lib` of the external conversion library, in
particular the real one. -/
theorem wheel_chroma_max (lib : ColourLib) (c : ℕ)
    (h : (wheel lib).chosen = some c) :
    (1 ≤ c ∧ c ≤ 100) ∧
    (∀ i < 6, ciecam16_is_within_srgb lib (wheelSpec 6 c i) = true) ∧
    (∀ c', c < c' → c' ≤ 100 →
      ∃ i < 6, ciecam16_is_within_srgb lib (wheelSpec 6 c' i) = false) := by
  obtain ⟨h1, h2, h3, h4⟩ := wheelSearchFrom_chosen_sound lib 6 100 c h
  refine ⟨⟨h1, h2⟩, (wheelInner_oog_false_iff lib 6 c).1 h3, ?_⟩
  intro c' hc1 hc2
  by_contra hno
  push_neg at hno
  have hfalse : (wheelInner lib 6 c').oog = false := by
    rw [wheelInner_oog_false_iff]
    intro i hi
    have hne := hno i hi
    rcases Bool.eq_false_or_eq_true
        (ciecam16_is_within_srgb lib (wheelSpec 6 c' i)) with hb | hb
    · exact hb
    · exact absurd hb hne
  have htrue := h4 c' hc1 hc2
  rw [htrue] at hfalse
  cases hfalse

/-- C1 witness: with the concrete all-in-gamut stand-in library the search
announces `C = 100`, and the maximality conclusion holds there. -/
theorem wheel_chroma_max_wit :
    (1 ≤ 100 ∧ 100 ≤ 100) ∧
    (∀ i < 6, ciecam16_is_within_srgb testLib (wheelSpec 6 100 i) = true) ∧
    (∀ c', 100 < c' → c' ≤ 100 →
      ∃ i < 6, ciecam16_is_within_srgb testLib (wheelSpec 6 c' i) = false) :=
  wheel_chroma_max testLib 100 testLib_chosen

/-- C8: if the `slices = 6` search announces chroma `c6`, then the same
search run with `slices = 1` (all else fixed) announces some chroma
`c1 ≥ c6`: the single constrained hue `h = 0` also occurs in the 6-slice
wheel, so every 6-slice-feasible chroma is 1-slice-feasible. -/
theorem wheel_slices_mono (lib : ColourLib) (c6 : ℕ)
    (h : (wheel lib).chosen = some c6) :
    ∃ c1, (wheelSearchFrom lib 1 100).chosen = some c1 ∧ c6 ≤ c1 := by
  obtain ⟨h1, h2, h3, _⟩ := wheelSearchFrom_chosen_sound lib 6 100 c6 h
  have hz : ciecam16_is_within_srgb lib (wheelSpec 6 c6 0) = true :=
    (wheelInner_oog_false_iff lib 6 c6).1 h3 0 (by omega)
  have hspec : wheelSpec 1 c6 0 = wheelSpec 6 c6 0 := by
    unfold wheelSpec
    simp
  have hone : (wheelInner lib 1 c6).oog = false := by
    rw [wheelInner_oog_false_iff]
    intro i hi
    obtain rfl : i = 0 := by omega
    rw [hspec]
    exact hz
  exact wheelSearchFrom_chosen_complete lib 1 100 c6 h1 h2 hone

/-- C8 witness: with the stand-in library both searches announce 100. -/
theorem wheel_slices_mono_wit :
    ∃ c1, (wheelSearchFrom testLib 1 100).chosen = some c1 ∧ 100 ≤ c1 :=
  wheel_slices_mono testLib 100 testLib_chosen

/-- C9: the chroma search always terminates (it is a total function of the
embedding) within at most 100 candidate-chroma iterations, making at most
`100 * slices` gamut-classifier calls — both for `wheel()` itself
(`slices = 6`) and for any other slice count. -/
theorem wheel_search_bounded (lib : ColourLib) (s : ℕ) :
    ((wheel lib).iters ≤ 100 ∧ (wheel lib).calls ≤ 100 * 6) ∧
    (wheelSearchFrom lib s 100).iters ≤ 100 ∧
      (wheelSearchFrom lib s 100).calls ≤ 100 * s := by
  have h6 := wheelSearchFrom_bounds lib 6 100
  have hs := wheelSearchFrom_bounds lib s 100
  exact ⟨⟨h6.1, h6.2⟩, hs.1, hs.2⟩

/-- C10: when the search announces chroma `c`, the displayed hues row has
exactly 6 entries; entry `i` is `ciecam16_to_hex` of the specification
`(J = 50, C = c, h = 60 * i)`, that specification was accepted by the
gamut classifier, and on its RGB channels (all in `[0, 1]`) the clamping
in `rgb_to_hex` is a no-op: the hex string equals the unclamped
`round(val * 255)` encoding. -/
theorem wheel_success_row (lib : ColourLib) (c : ℕ)
    (h : (wheel lib).chosen = some c) :
    (wheel lib).hues.length = 6 ∧
    ∀ i < 6,
      (wheel lib).hues[i]? = some (ciecam16_to_hex lib (wheelSpec 6 c i)) ∧
      ciecam16_is_within_srgb lib (wheelSpec 6 c i) = true ∧
      ciecam16_to_hex lib (wheelSpec 6 c i) =
        noClampHex (xyz_to_rgb lib (ciecam16_to_xyz lib (wheelSpec 6 c i))) := by
  obtain ⟨h1, h2, h3, _⟩ := wheelSearchFrom_chosen_sound lib 6 100 c h
  have hall : ∀ i < 6, ciecam16_is_within_srgb lib (wheelSpec 6 c i) = true :=
    (wheelInner_oog_false_iff lib 6 c).1 h3
  have hhues : (wheel lib).hues = (wheelInner lib 6 c).hexes :=
    wheelSearchFrom_hues_of_chosen lib 6 100 c h
  obtain ⟨hlen, hget⟩ := wheelInnerAux_hexes lib 6 c 6 0
    (by intro j hj; simpa using hall j hj)
  constructor
  · rw [hhues]
    exact hlen
  · intro i hi
    refine ⟨?_, hall i hi, ?_⟩
    · rw [hhues]
      simpa using hget i hi
    · have hw := hall i hi
      simp only [ciecam16_is_within_srgb, Bool.and_eq_true,
        decide_eq_true_eq] at hw
      obtain ⟨⟨⟨hr0, hr1⟩, hg0, hg1⟩, hb0, hb1⟩ := hw
      unfold ciecam16_to_hex noClampHex rgb_to_hex
      rw [clampByte_eq_noClamp hr0 hr1, clampByte_eq_noClamp hg0 hg1,
        clampByte_eq_noClamp hb0 hb1]

/-- C10 witness: the conclusion evaluated at the stand-in library, where
the announced chroma is 100. -/
theorem wheel_success_row_wit :
    (wheel testLib).hues.length = 6 ∧
    ∀ i < 6,
      (wheel testLib).hues[i]? =
        some (ciecam16_to_hex testLib (wheelSpec 6 100 i)) ∧
      ciecam16_is_within_srgb testLib (wheelSpec 6 100 i) = true ∧
      ciecam16_to_hex testLib (wheelSpec 6 100 i) =
        noClampHex (xyz_to_rgb testLib (ciecam16_to_xyz testLib (wheelSpec 6 100 i))) :=
  wheel_success_row testLib 100 testLib_chosen
